import Mathlib

/-!
Verification of the core data operations of `music_search_app.py` (a Streamlit
music-catalog search tool) against its natural-language specification.

The file shallowly embeds the pure fragments of the program:
* the cover-override table and the mutations `update_cover_override` /
  `reset_cover_override` together with the keep-last deduplication and
  override-before-base resolution performed by `load_data`;
* both `normalize` definitions (the module defines `normalize` twice; the
  second, later definition shadows the first at every call site);
* `fuzzy_match` on top of a model of `rapidfuzz.fuzz.partial_ratio`;
* the scoring and ranking pipeline of `get_autocomplete_suggestions`;
* the format classification used for the filter options and their counts;
* the per-release artist label computed by the album rendering loop.

External effects (file system, HTTP, Streamlit session state) are modelled as
explicit parameters: e.g. the Discogs cover fetched by `fetch_discogs_cover`
becomes an `Option String` argument.
-/

namespace MusicSearch

/-- One row of the cover-override table `cover_overrides.csv`: a `release_id`
key and a `cover_url` value — the two columns the application reads/writes. -/
structure OverrideEntry where
  release_id : Int
  cover_url : String
deriving DecidableEq

/-- The table mutation performed by `update_cover_override`
(`music_search_app.py` lines 102–103): every row whose `release_id` equals the
written key is removed, then the new row is appended. -/
def update_cover_override (t : List OverrideEntry) (release_id : Int)
    (new_url : String) : List OverrideEntry :=
  t.filter (fun e => e.release_id != release_id) ++ [⟨release_id, new_url⟩]

/-- The table mutation performed by `reset_cover_override` (lines 112–120).
The Discogs lookup (`fetch_discogs_cover`, a network call) is modelled by the
`fallback` parameter: `some url` when the API returned a cover image, `none`
otherwise.  The row for the key is dropped; when a fallback cover was fetched
it is appended as a fresh override row. -/
def reset_cover_override (t : List OverrideEntry) (release_id : Int)
    (fallback : Option String) : List OverrideEntry :=
  let t' := t.filter (fun e => e.release_id != release_id)
  match fallback with
  | some url => t' ++ [⟨release_id, url⟩]
  | none => t'

/-- `overrides.drop_duplicates(subset='release_id', keep='last')`
(`load_data`, line 143): keeps, in their original relative order, the last row
of the table for every `release_id`. -/
def drop_duplicates_keep_last (t : List OverrideEntry) : List OverrideEntry :=
  t.foldr
    (fun e acc =>
      if acc.any (fun e2 => e2.release_id == e.release_id) then acc else e :: acc)
    []

/-- Cover resolution as performed by `load_data` (lines 143–145): the override
table is deduplicated keeping the last row per key, merged on `release_id`,
and `cover_art_final = df['cover_url'].combine_first(df['cover_art'])` prefers
the override over the base cover whenever an override row exists. -/
def resolve (t : List OverrideEntry) (release_id : Int) (base : Option String) :
    Option String :=
  match (drop_duplicates_keep_last t).find? (fun e => e.release_id == release_id) with
  | some e => some e.cover_url
  | none => base

/-- `find?` through the keep-last fold is unchanged when the accumulator
already contains the looked-up key: later (right-most) rows shadow earlier
ones for that key. -/
theorem find?_keepLast_fold_of_any (r : Int) :
    ∀ (l acc : List OverrideEntry),
      acc.any (fun e => e.release_id == r) = true →
      ((l.foldr
          (fun e acc =>
            if acc.any (fun e2 => e2.release_id == e.release_id) then acc
            else e :: acc)
          acc).find? (fun e => e.release_id == r))
        = acc.find? (fun e => e.release_id == r) := by
  intro l
  induction l with
  | nil => intro acc _; rfl
  | cons a l ih =>
    intro acc hacc
    have hR := ih acc hacc
    set R := l.foldr
      (fun e acc =>
        if acc.any (fun e2 => e2.release_id == e.release_id) then acc
        else e :: acc) acc with hRdef
    have hRany : R.any (fun e => e.release_id == r) = true := by
      have hsome : (R.find? (fun e => e.release_id == r)).isSome = true := by
        rw [hR]
        rcases List.any_eq_true.mp hacc with ⟨x, hx, hpx⟩
        exact List.find?_isSome.mpr ⟨x, hx, hpx⟩
      rcases Option.isSome_iff_exists.mp hsome with ⟨y, hy⟩
      exact List.any_eq_true.mpr
        ⟨y, List.mem_of_find?_eq_some hy,
          @List.find?_some _ (fun e => e.release_id == r) y R hy⟩
    show (if R.any (fun e2 => e2.release_id == a.release_id) then R else a :: R).find?
        (fun e => e.release_id == r) = acc.find? (fun e => e.release_id == r)
    by_cases hcase : R.any (fun e2 => e2.release_id == a.release_id) = true
    · rw [if_pos hcase]; exact hR
    · rw [if_neg hcase]
      have hpa : (a.release_id == r) = false := by
        by_contra hne
        have : a.release_id = r := by
          cases h' : (a.release_id == r) with
          | false => exact absurd h' hne
          | true => exact by simpa using h'
        apply hcase
        rcases List.any_eq_true.mp hRany with ⟨y, hy, hpy⟩
        exact List.any_eq_true.mpr ⟨y, hy, by
          have : y.release_id = r := by simpa using hpy
          simp [this, ‹a.release_id = r›]⟩
      rw [List.find?_cons, hpa]
      exact hR

theorem filter_ne_append_single (t : List OverrideEntry) (r : Int) (u : String) :
    (t.filter (fun e => e.release_id != r) ++ [(⟨r, u⟩ : OverrideEntry)]).filter
        (fun e => e.release_id == r) = [⟨r, u⟩] := by
  rw [List.filter_append, List.filter_filter]
  have h1 : t.filter (fun e => (e.release_id == r) && (e.release_id != r)) = [] := by
    apply List.filter_eq_nil_iff.mpr
    intro e _
    by_cases h : e.release_id = r <;> simp [h]
  rw [h1]
  simp

/-- C1: the override table holds at most one entry per `release_id` after every
write: `update_cover_override` removes all prior rows for the key before
appending the new one, keep-last deduplication on load keeps the
most-recently-appended row, and so after upserting `url1` then `url2` for the
same key the table contains exactly one row for that key, whose value is
`url2`, and resolution yields `url2` (last-write-wins). -/
theorem upsert_last_write_wins (t : List OverrideEntry) (r : Int)
    (u1 u2 : String) (base : Option String) :
    (update_cover_override (update_cover_override t r u1) r u2).filter
        (fun e => e.release_id == r) = [⟨r, u2⟩]
    ∧ resolve (update_cover_override (update_cover_override t r u1) r u2) r base
        = some u2 := by
  constructor
  · exact filter_ne_append_single _ r u2
  · unfold resolve drop_duplicates_keep_last update_cover_override
    rw [List.foldr_append]
    rw [find?_keepLast_fold_of_any r _ _ (by simp)]
    simp

/-- C10: `update_cover_override` is frame-preserving on other keys — for every
key `k` different from the written key, the rows for `k` (their presence and
their `cover_url` values) are unchanged by the upsert. -/
theorem upsert_preserves_other_keys (t : List OverrideEntry) (r k : Int)
    (u : String) (h : k ≠ r) :
    (update_cover_override t r u).filter (fun e => e.release_id == k)
      = t.filter (fun e => e.release_id == k) := by
  unfold update_cover_override
  rw [List.filter_append, List.filter_filter]
  have h2 : List.filter (fun e => e.release_id == k) [(⟨r, u⟩ : OverrideEntry)] = [] := by
    simp [Ne.symm h]
  rw [h2, List.append_nil]
  apply List.filter_congr
  intro e _
  by_cases he : e.release_id = k
  · simp [he, h]
  · simp [he]

theorem upsert_preserves_other_keys_witness :
    (update_cover_override [⟨5, "http://a"⟩] 7 "http://b").filter
        (fun e => e.release_id == 5) = [⟨5, "http://a"⟩] := by
  have := upsert_preserves_other_keys [⟨5, "http://a"⟩] 7 5 "http://b" (by decide)
  rw [this]; rfl

/-- C7 counterexample: on a table with no entry for the key, the reset
operation is not a no-op when the Discogs fallback fetch succeeds — the
fetched fallback URL is appended as a fresh override row. -/
theorem reset_nonexistent_appends_fallback :
    reset_cover_override [] 1 (some "https://img.discogs.com/fallback.jpg")
      = [⟨1, "https://img.discogs.com/fallback.jpg"⟩]
    ∧ reset_cover_override [] 1 (some "https://img.discogs.com/fallback.jpg")
      ≠ [] := by
  constructor
  · rfl
  · decide

/-- C7 (amended): `reset_cover_override` deletes every row for the key; when
the Discogs fallback fetch returns no cover and the key had no row, the table
is unchanged (and the operation never raises: all exceptions are caught);
when a fallback cover is fetched it is appended as the single row for the key. -/
theorem reset_removes_key_and_stores_fallback (t : List OverrideEntry) (r : Int)
    (fb : Option String) :
    (t.filter (fun e => e.release_id == r) = [] →
      reset_cover_override t r none = t)
    ∧ (reset_cover_override t r fb).filter (fun e => e.release_id == r)
        = (match fb with | some u => [⟨r, u⟩] | none => []) := by
  constructor
  · intro hnone
    show t.filter (fun e => e.release_id != r) = t
    apply List.filter_eq_self.mpr
    intro e he
    have : ¬(e.release_id == r) = true := by
      intro hcon
      have := List.filter_eq_nil_iff.mp hnone e he
      exact this hcon
    by_cases h : e.release_id = r
    · exact absurd (by simp [h]) this
    · simp [h]
  · cases fb with
    | some u => exact filter_ne_append_single t r u
    | none =>
      show (t.filter (fun e => e.release_id != r)).filter
          (fun e => e.release_id == r) = []
      rw [List.filter_filter]
      apply List.filter_eq_nil_iff.mpr
      intro e _
      by_cases h : e.release_id = r <;> simp [h]

theorem reset_removes_key_and_stores_fallback_witness :
    reset_cover_override [⟨2, "http://keep"⟩] 1 none = [⟨2, "http://keep"⟩] :=
  (reset_removes_key_and_stores_fallback [⟨2, "http://keep"⟩] 1 none).1 (by decide)

/-- ASCII whitespace as recognised by Python's `\s` class and `str.strip`
(after the `encode('ascii','ignore')` step every character is ASCII, so the
ASCII fragment of Python's Unicode whitespace suffices). -/
def isPySpace (c : Char) : Bool :=
  c == ' ' || c == '\t' || c == '\n' || c == '\r' || c == '\x0b' || c == '\x0c'

/-- A Python `\w` word character in the ASCII range: letter, digit or
underscore. -/
def pyWordChar (c : Char) : Bool :=
  c.isAlpha || c.isDigit || c == '_'

/-- Modelled from the spec: step (2) of `normalize` — Unicode canonical
decomposition followed by removal of non-ASCII code points
(`unicodedata.normalize('NFKD', text).encode('ascii','ignore')`).  The Unicode
decomposition table is library data, not repository code; the model is the
identity on ASCII characters, carries an explicit table mapping the common
Latin-1 accented lower-case letters to their ASCII base letter, and removes
every other non-ASCII character (as `encode('ascii','ignore')` does to code
points without an ASCII base). -/
def nfkdAscii (c : Char) : List Char :=
  if c.toNat < 128 then [c]
  else if c ∈ ['á', 'à', 'â', 'ä', 'ã', 'å'] then ['a']
  else if c ∈ ['é', 'è', 'ê', 'ë'] then ['e']
  else if c ∈ ['í', 'ì', 'î', 'ï'] then ['i']
  else if c ∈ ['ó', 'ò', 'ô', 'ö', 'õ'] then ['o']
  else if c ∈ ['ú', 'ù', 'û', 'ü'] then ['u']
  else if c == 'ç' then ['c']
  else if c == 'ñ' then ['n']
  else []

/-- Modelled from the spec: the NFKD step of the *first* `normalize`
definition, which removes combining marks but keeps non-ASCII non-combining
characters (`''.join(c for c in unicodedata.normalize('NFKD', text) if not
unicodedata.combining(c))`).  Identity on ASCII, accent table as in
`nfkdAscii`, and any other non-ASCII character is kept unchanged (it is not a
combining mark). -/
def nfkdKeepBase (c : Char) : List Char :=
  if c.toNat < 128 then [c]
  else if c ∈ ['á', 'à', 'â', 'ä', 'ã', 'å'] then ['a']
  else if c ∈ ['é', 'è', 'ê', 'ë'] then ['e']
  else if c ∈ ['í', 'ì', 'î', 'ï'] then ['i']
  else if c ∈ ['ó', 'ò', 'ô', 'ö', 'õ'] then ['o']
  else if c ∈ ['ú', 'ù', 'û', 'ü'] then ['u']
  else if c == 'ç' then ['c']
  else if c == 'ñ' then ['n']
  else [c]

/-- `re.sub(r"[^\w\s]", "", text)` on an ASCII string: delete every character
that is neither a word character nor whitespace, leaving whitespace runs
untouched. -/
def stripPunct (l : List Char) : List Char :=
  l.filter (fun c => pyWordChar c || isPySpace c)

/-- Python `str.strip()`: remove leading and trailing whitespace. -/
def pyStrip (l : List Char) : List Char :=
  ((l.dropWhile isPySpace).reverse.dropWhile isPySpace).reverse

/-- The *effective* `normalize`: the final, shadowing definition
(lines 180–186, textually identical to the one at lines 157–163).  Every call
executed at run time — including the one inside `fuzzy_match`, whose global
name is resolved only when the module body runs — uses this definition:
lower-case, NFKD + ASCII-ignore, delete `[^\w\s]` characters, and strip the
ends.  The `if not isinstance(text, str): return ""` guard is outside the
model's string domain. -/
def normalize (s : String) : String :=
  String.mk (pyStrip (stripPunct ((s.toList.map Char.toLower).flatMap nfkdAscii)))

/-- The run of characters outside `[a-z0-9]` collapsed to a single space:
`re.sub(r'[^a-z0-9]+', ' ', text)` of the first `normalize` definition. -/
def isLowerAlnum (c : Char) : Bool :=
  ('a' ≤ c && c ≤ 'z') || ('0' ≤ c && c ≤ '9')

def collapseAux : Bool → List Char → List Char
  | _, [] => []
  | inRun, c :: rest =>
    if isLowerAlnum c then c :: collapseAux false rest
    else if inRun then collapseAux true rest
    else ' ' :: collapseAux true rest

def collapseNonAlnum (l : List Char) : List Char :=
  collapseAux false l

/-- The first `normalize` definition (lines 38–42), shadowed at run time by
the later one: lower-case, NFKD with combining-mark removal, replace each run
of characters outside `[a-z0-9]` by a single space, and strip.  The
`pd.isna(text)` guard is outside the model's string domain. -/
def normalize_v1 (s : String) : String :=
  String.mk (pyStrip (collapseNonAlnum ((s.toList.map Char.toLower).flatMap nfkdKeepBase)))

theorem pyStrip_cons_space (X : List Char) : pyStrip (' ' :: X) = pyStrip X := by
  unfold pyStrip
  rw [List.dropWhile_cons]
  simp [isPySpace]

theorem pyStrip_append_space (X : List Char) : pyStrip (X ++ [' ']) = pyStrip X := by
  unfold pyStrip
  rw [List.dropWhile_append]
  by_cases h : (X.dropWhile isPySpace).isEmpty
  · rw [if_pos h]
    have hx : X.dropWhile isPySpace = [] := by
      cases hd : X.dropWhile isPySpace with
      | nil => rfl
      | cons a l => rw [hd] at h; simp at h
    rw [hx]
    rfl
  · rw [if_neg h]
    rw [List.reverse_append]
    show ((List.reverse [' '] ++ _).dropWhile _).reverse = _
    rw [List.reverse_singleton, List.singleton_append, List.dropWhile_cons]
    simp [isPySpace]

/-- C5 counterexample: under the effective (final, shadowing) `normalize`,
interior whitespace runs are *not* collapsed, so the equality the claim
singles out fails: `normalize("  A   B  ")` is `"a   b"` while
`normalize("a b")` is `"a b"`. -/
theorem normalize_collapse_counterexample :
    normalize "  A   B  " = "a   b" ∧ normalize "a b" = "a b"
    ∧ normalize "  A   B  " ≠ normalize "a b" := by
  exact ⟨rfl, rfl, by decide⟩

/-- C5 (amended): the effective `normalize` (the final, shadowing definition)
keeps only word characters (`[a-z0-9_]` after lower-casing — underscores
survive) and whitespace, trims leading and trailing whitespace, but leaves
interior whitespace runs untouched; the run-collapsing behaviour the claim
describes belongs to the first, shadowed definition, for which the claimed
equality does hold. -/
theorem normalize_final_shape (s : String) :
    (∀ c ∈ (normalize s).toList, (pyWordChar c || isPySpace c) = true)
    ∧ normalize (" " ++ s) = normalize s
    ∧ normalize (s ++ " ") = normalize s
    ∧ normalize_v1 "  A   B  " = normalize_v1 "a b" := by
  refine ⟨?_, ?_, ?_, by decide⟩
  · intro c hc
    have h1 : c ∈ ((stripPunct ((s.toList.map Char.toLower).flatMap nfkdAscii)).dropWhile
        isPySpace).reverse.dropWhile isPySpace := List.mem_reverse.mp hc
    have h2 := List.Sublist.mem h1 (List.dropWhile_sublist _)
    have h3 := List.mem_reverse.mp h2
    have h4 := List.Sublist.mem h3 (List.dropWhile_sublist _)
    exact (List.mem_filter.mp h4).2
  · show String.mk _ = String.mk _
    have h : (" " ++ s).toList = ' ' :: s.toList := by simp
    rw [h, List.map_cons]
    show String.mk (pyStrip (stripPunct (nfkdAscii (Char.toLower ' ')
        ++ (s.toList.map Char.toLower).flatMap nfkdAscii))) = _
    show String.mk (pyStrip (stripPunct (' ' ::
        (s.toList.map Char.toLower).flatMap nfkdAscii))) = _
    rw [stripPunct, List.filter_cons]
    simp only [isPySpace, pyWordChar]
    norm_num
    rw [pyStrip_cons_space]
    rfl
  · show String.mk _ = String.mk _
    have h : (s ++ " ").toList = s.toList ++ [' '] := by simp
    rw [h, List.map_append, List.flatMap_append]
    show String.mk (pyStrip (stripPunct ((s.toList.map Char.toLower).flatMap nfkdAscii
        ++ ((List.map Char.toLower [' ']).flatMap nfkdAscii)))) = _
    show String.mk (pyStrip (stripPunct ((s.toList.map Char.toLower).flatMap nfkdAscii
        ++ [' ']))) = _
    rw [stripPunct, List.filter_append]
    show String.mk (pyStrip (stripPunct ((s.toList.map Char.toLower).flatMap nfkdAscii)
        ++ List.filter _ [' '])) = _
    have hsp : List.filter (fun c => pyWordChar c || isPySpace c) [' '] = [' '] := rfl
    rw [hsp, pyStrip_append_space]


theorem normalize_final_shape_witness :
    (pyWordChar 'a' || isPySpace 'a') = true
    ∧ normalize (" " ++ "ab") = normalize "ab"
    ∧ normalize ("ab" ++ " ") = normalize "ab" :=
  ⟨(normalize_final_shape "a!b").1 'a' (by decide),
    (normalize_final_shape "ab").2.1,
    (normalize_final_shape "ab").2.2.1⟩

/-- The artist label computed by the album rendering loop (line 372):
`artist = "Various Artists" if group["Artist"].nunique() > 1 else
group["Artist"].iloc[0]`.  `nunique` counts distinct *raw* artist strings;
`iloc[0]` (the first row, modelled by `headD` — groups rendered by the loop
are never empty) supplies the label otherwise. -/
def display_artist (artists : List String) : String :=
  if 1 < artists.dedup.length then "Various Artists" else artists.headD ""

/-- C2 counterexample: a group whose two rows carry the raw artist strings
`"Alice"` and `"alice"` shares a single *normalized* artist value, yet the
code computes `nunique` on the raw strings and labels the group
`"Various Artists"` instead of the first row's raw artist. -/
theorem display_artist_normalized_counterexample :
    (["Alice", "alice"].map normalize).dedup.length = 1
    ∧ display_artist ["Alice", "alice"] = "Various Artists"
    ∧ display_artist ["Alice", "alice"] ≠ "Alice" := by
  refine ⟨by decide, by decide, by decide⟩

/-- C2 (amended): the displayed artist label is the first row's raw artist
string when all rows of the group carry the *same raw* artist string, and the
sentinel `"Various Artists"` as soon as two rows differ as raw strings — the
comparison is performed on raw artist strings (`nunique` of the raw column),
not on normalized ones. -/
theorem display_artist_raw_comparison (artists : List String) (_h : artists ≠ []) :
    ((∀ a ∈ artists, a = artists.headD "") → display_artist artists = artists.headD "")
    ∧ ((∃ a ∈ artists, ∃ b ∈ artists, a ≠ b) →
        display_artist artists = "Various Artists") := by
  constructor
  · intro hall
    have hsub : artists.toFinset ⊆ {artists.headD ""} := by
      intro x hx
      rcases List.mem_toFinset.mp hx with hxa
      exact Finset.mem_singleton.mpr (hall x hxa)
    have hcard : artists.toFinset.card ≤ 1 := by
      calc artists.toFinset.card ≤ ({artists.headD ""} : Finset String).card :=
            Finset.card_le_card hsub
        _ = 1 := Finset.card_singleton _
    have hdedup : ¬(1 < artists.dedup.length) := by
      rw [← List.card_toFinset]
      omega
    rw [display_artist, if_neg hdedup]
  · rintro ⟨a, ha, b, hb, hab⟩
    have hsub : ({a, b} : Finset String) ⊆ artists.toFinset := by
      intro x hx
      rcases Finset.mem_insert.mp hx with hxa | hxb
      · exact List.mem_toFinset.mpr (hxa ▸ ha)
      · exact List.mem_toFinset.mpr ((Finset.mem_singleton.mp hxb) ▸ hb)
    have hcard : 2 ≤ artists.toFinset.card := by
      calc 2 = ({a, b} : Finset String).card := (Finset.card_pair hab).symm
        _ ≤ artists.toFinset.card := Finset.card_le_card hsub
    have hdedup : 1 < artists.dedup.length := by
      rw [← List.card_toFinset]
      omega
    rw [display_artist, if_pos hdedup]

theorem display_artist_raw_comparison_witness :
    display_artist ["Alice", "Alice"] = "Alice"
    ∧ display_artist ["Alice", "Bob"] = "Various Artists" := by
  constructor
  · exact (display_artist_raw_comparison ["Alice", "Alice"] (by decide)).1
      (by intro a ha; fin_cases ha <;> rfl)
  · exact (display_artist_raw_comparison ["Alice", "Bob"] (by decide)).2
      ⟨"Alice", by decide, "Bob", by decide, by decide⟩

/-- Longest-common-subsequence length of two character lists, the basis of the
InDel (insertion/deletion-only) similarity used by `rapidfuzz.fuzz.ratio`.
The fuel argument only makes the recursion structural (so that proofs can
evaluate the function); every recursive call removes at least one list
element, so the initial fuel `l1.length + l2.length` supplied by `lcsLen` is
never exhausted while either list is non-empty. -/
def lcsFuel : Nat → List Char → List Char → Nat
  | 0, _, _ => 0
  | _ + 1, [], _ => 0
  | _ + 1, _ :: _, [] => 0
  | fuel + 1, a :: as, b :: bs =>
    if a = b then lcsFuel fuel as bs + 1
    else max (lcsFuel fuel (a :: as) bs) (lcsFuel fuel as (b :: bs))

def lcsLen (l1 l2 : List Char) : Nat :=
  lcsFuel (l1.length + l2.length) l1 l2

theorem lcsFuel_le_left :
    ∀ (f : Nat) (l1 l2 : List Char), lcsFuel f l1 l2 ≤ l1.length := by
  intro f
  induction f with
  | zero => intro l1 l2; simp [lcsFuel]
  | succ f ih =>
    intro l1 l2
    match l1, l2 with
    | [], _ => simp [lcsFuel]
    | _ :: _, [] => simp [lcsFuel]
    | a :: as, b :: bs =>
      show (if a = b then lcsFuel f as bs + 1
        else max (lcsFuel f (a :: as) bs) (lcsFuel f as (b :: bs))) ≤ as.length + 1
      by_cases hab : a = b
      · rw [if_pos hab]
        exact Nat.succ_le_succ (ih as bs)
      · rw [if_neg hab]
        exact max_le (ih (a :: as) bs) (Nat.le_succ_of_le (ih as (b :: bs)))

theorem lcsFuel_le_right :
    ∀ (f : Nat) (l1 l2 : List Char), lcsFuel f l1 l2 ≤ l2.length := by
  intro f
  induction f with
  | zero => intro l1 l2; simp [lcsFuel]
  | succ f ih =>
    intro l1 l2
    match l1, l2 with
    | [], _ => simp [lcsFuel]
    | _ :: _, [] => simp [lcsFuel]
    | a :: as, b :: bs =>
      show (if a = b then lcsFuel f as bs + 1
        else max (lcsFuel f (a :: as) bs) (lcsFuel f as (b :: bs))) ≤ bs.length + 1
      by_cases hab : a = b
      · rw [if_pos hab]
        exact Nat.succ_le_succ (ih as bs)
      · rw [if_neg hab]
        exact max_le (Nat.le_succ_of_le (ih (a :: as) bs)) (ih as (b :: bs))

/-- Modelled from the spec: `rapidfuzz.fuzz.ratio` (library code, not part of
the repository) — the normalized InDel similarity
`100 * (1 - dist/(len1+len2)) = 200 * lcs / (len1+len2)` on the 0–100 scale,
with the both-empty case scoring 100 (a perfect match of two empty
strings). -/
def fuzzRatio (l1 l2 : List Char) : ℚ :=
  if l1.length + l2.length = 0 then 100
  else (200 * lcsLen l1 l2 : ℚ) / (l1.length + l2.length : ℚ)

/-- All windows of length `n` inside `l` — the alignments tried by
`partial_ratio` for a needle of length `n`. -/
def windows (n : Nat) (l : List Char) : List (List Char) :=
  (List.range (l.length - n + 1)).map (fun i => (l.drop i).take n)

/-- Modelled from the spec: `rapidfuzz.fuzz.partial_ratio` — "the best-aligned
substring similarity between query and candidate, expressed 0–100": the
maximum `fuzzRatio` of the shorter string against every window of the shorter
string's length inside the longer one; rapidfuzz's empty-input special case
scores 100 when both strings are empty and 0 when exactly one is. -/
def partial_ratio (s1 s2 : String) : ℚ :=
  if s1.length = 0 ∧ s2.length = 0 then 100
  else if s1.length = 0 ∨ s2.length = 0 then 0
  else if s1.length ≤ s2.length then
    ((windows s1.length s2.toList).map (fuzzRatio s1.toList)).foldr max 0
  else
    ((windows s2.length s1.toList).map (fuzzRatio s2.toList)).foldr max 0

theorem fuzzRatio_le_100 (l1 l2 : List Char) : fuzzRatio l1 l2 ≤ 100 := by
  unfold fuzzRatio
  by_cases h : l1.length + l2.length = 0
  · rw [if_pos h]
  · rw [if_neg h]
    have hpos : (0 : ℚ) < (l1.length + l2.length : ℚ) := by
      have : 0 < l1.length + l2.length := Nat.pos_of_ne_zero h
      exact_mod_cast this
    rw [div_le_iff₀ hpos]
    have h1 : lcsFuel (l1.length + l2.length) l1 l2 ≤ l1.length := lcsFuel_le_left _ _ _
    have h2 : lcsFuel (l1.length + l2.length) l1 l2 ≤ l2.length := lcsFuel_le_right _ _ _
    have hsum : 2 * lcsLen l1 l2 ≤ l1.length + l2.length := by
      unfold lcsLen
      omega
    have : (2 * lcsLen l1 l2 : ℚ) ≤ (l1.length + l2.length : ℚ) := by
      exact_mod_cast hsum
    nlinarith

theorem foldr_max_le_100 : ∀ (l : List ℚ), (∀ x ∈ l, x ≤ 100) → l.foldr max 0 ≤ 100 := by
  intro l
  induction l with
  | nil => intro _; norm_num
  | cons a l ih =>
    intro h
    show max a (l.foldr max 0) ≤ 100
    exact max_le (h a (List.mem_cons_self a l)) (ih fun x hx => h x (List.mem_cons_of_mem a hx))

theorem partial_ratio_le_100 (s1 s2 : String) : partial_ratio s1 s2 ≤ 100 := by
  unfold partial_ratio
  by_cases h1 : s1.length = 0 ∧ s2.length = 0
  · rw [if_pos h1]
  · rw [if_neg h1]
    by_cases h2 : s1.length = 0 ∨ s2.length = 0
    · rw [if_pos h2]; norm_num
    · rw [if_neg h2]
      by_cases h3 : s1.length ≤ s2.length
      · rw [if_pos h3]
        apply foldr_max_le_100
        intro x hx
        rcases List.mem_map.mp hx with ⟨w, _, hw⟩
        exact hw ▸ fuzzRatio_le_100 _ _
      · rw [if_neg h3]
        apply foldr_max_le_100
        intro x hx
        rcases List.mem_map.mp hx with ⟨w, _, hw⟩
        exact hw ▸ fuzzRatio_le_100 _ _

/-- `fuzzy_match(text, query, threshold=85)` (lines 44–45):
`fuzz.partial_ratio(normalize(text), normalize(query)) >= threshold`.  The
global name `normalize` is resolved when the call runs, i.e. to the final,
shadowing definition. -/
def fuzzy_match (text query : String) (threshold : ℚ := 85) : Bool :=
  partial_ratio (normalize text) (normalize query) ≥ threshold

/-- C6 counterexample: when the candidate *also* normalizes to the empty
string, `partial_ratio` of two empty strings is 100 and `fuzzy_match` with an
empty or whitespace-only query returns `true`, not `false`: the empty
candidate and the punctuation-only candidate `"!!!"` both match the empty and
the whitespace-only query at the default threshold 85. -/
theorem fuzzy_match_empty_counterexample :
    fuzzy_match "" "" 85 = true ∧ fuzzy_match "!!!" "   " 85 = true := by
  exact ⟨by decide, by decide⟩

/-- C6 (amended): `fuzzy_match` with an empty or whitespace-only query (one
whose normalized form is empty) returns `false` for every candidate whose
normalized form is non-empty and every threshold > 0, because `partial_ratio`
against an empty needle is 0; candidates that themselves normalize to the
empty string instead score 100 and match (see the counterexample). -/
theorem fuzzy_match_empty_query_false (text query : String) (threshold : ℚ)
    (hq : normalize query = "") (ht : normalize text ≠ "") (hth : 0 < threshold) :
    fuzzy_match text query threshold = false := by
  unfold fuzzy_match
  rw [hq]
  have hlen : ¬(normalize text).length = 0 := by
    intro h0
    exact ht (by
      cases hn : normalize text with
      | mk data =>
        rw [hn] at h0
        cases data with
        | nil => rfl
        | cons c cs => simp [String.length, hn] at h0 ⊢)
  have hzero : partial_ratio (normalize text) "" = 0 := by
    unfold partial_ratio
    rw [if_neg (by intro hcon; exact hlen hcon.1)]
    rw [if_pos (show (normalize text).length = 0 ∨ ("" : String).length = 0
      from Or.inr (by decide))]
  rw [hzero]
  simpa using not_le.mpr hth

theorem fuzzy_match_empty_query_false_witness :
    fuzzy_match "Abba" "" 85 = false :=
  fuzzy_match_empty_query_false "Abba" "" 85 (by decide) (by decide) (by norm_num)

/-- The per-candidate scoring of `get_autocomplete_suggestions`
(lines 203–215), applied to the normalized search text and one normalized
candidate value: exact equality scores 100, a prefix match
(`norm_val.startswith(prefix_norm)`, modelled by `List.isPrefixOf` on the
character lists) scores 95, otherwise the partial-ratio similarity counts
when it is at least 85, otherwise the candidate is skipped (`none`); the
length bonus `min(len(norm_val), 30)` is then added to the surviving
score. -/
def suggestion_score (pnorm norm_val : String) : Option ℚ :=
  (if norm_val = pnorm then some (100 : ℚ)
   else if pnorm.toList.isPrefixOf norm_val.toList then some 95
   else if partial_ratio pnorm norm_val ≥ 85 then some (partial_ratio pnorm norm_val)
   else none).map
    (fun sc => sc + ((min norm_val.length 30 : ℕ) : ℚ))

/-- The branch of `suggestion_score` a candidate falls into: 3 = exact
normalized equality, 2 = normalized-prefix match, 1 = fuzzy partial-ratio at
least 85, `none` = skipped. -/
def suggestion_tier (pnorm norm_val : String) : Option Nat :=
  if norm_val = pnorm then some 3
  else if pnorm.toList.isPrefixOf norm_val.toList then some 2
  else if partial_ratio pnorm norm_val ≥ 85 then some 1
  else none

unseal Rat.add in
/-- C4 counterexample: the scoring works on the 0–100 similarity scale plus a
length bonus, never on a 0–1000 scale: for the query and candidate `"abc"`
(its own normalized form) the score is `100 + min(3, 30) = 103`, not 1000. -/
theorem score_exact_not_1000_counterexample :
    suggestion_score "abc" "abc" = some 103 ∧ (103 : ℚ) ≠ 1000 := by
  exact ⟨by decide, by norm_num⟩

/-- C4 (amended): for every non-empty normalized query `q`, the suggestion
score of a candidate equal to `q` is `100 + min(len(q), 30)` — the
exact-match branch awards the similarity-scale ceiling 100 (not 1000) and the
length bonus is then added on top. -/
theorem score_exact_match (q : String) (_hq : q ≠ "") :
    suggestion_score q q = some (100 + ((min q.length 30 : ℕ) : ℚ)) := by
  unfold suggestion_score
  rw [if_pos rfl]
  rfl

unseal Rat.add in
theorem score_exact_match_witness :
    "hello" ≠ "" ∧ suggestion_score "hello" "hello" = some 105 := by
  refine ⟨by decide, ?_⟩
  rw [score_exact_match "hello" (by decide)]
  decide

unseal Rat.add in
/-- C3 counterexample: the length bonus `min(len, 30)` can exceed the 5-point
gap between the exact tier (base 100) and the prefix tier (base 95), so a
prefix-tier candidate outranks an exact-tier one: for the query `"a"`, the
exact candidate `"a"` scores 101 while the prefix candidate `"abcdefg"`
scores 102. -/
theorem length_bonus_outranks_tier_counterexample :
    suggestion_tier "a" "a" = some 3
    ∧ suggestion_tier "a" "abcdefg" = some 2
    ∧ suggestion_score "a" "a" = some 101
    ∧ suggestion_score "a" "abcdefg" = some 102
    ∧ ¬((102 : ℚ) ≤ 101) := by
  refine ⟨by decide, by decide, by decide, by decide, by norm_num⟩

/-- C3 (amended): the length bonus is bounded by 30 but is *not* capped so as
to preserve tier order across candidates of different lengths (see the
counterexample).  What does hold: every branch base is at most 100 — the
exact-match base — so an exact-match candidate is never outranked by any
candidate whose normalized form is at most as long as its own. -/
theorem exact_match_not_outranked (q c : String) (s : ℚ)
    (hc : suggestion_score q c = some s) (hlen : c.length ≤ q.length) :
    ∃ sq : ℚ, suggestion_score q q = some sq ∧ s ≤ sq := by
  refine ⟨100 + ((min q.length 30 : ℕ) : ℚ),
    by unfold suggestion_score; rw [if_pos rfl]; rfl, ?_⟩
  have hbonus : ((min c.length 30 : ℕ) : ℚ) ≤ ((min q.length 30 : ℕ) : ℚ) := by
    exact_mod_cast min_le_min hlen (le_refl 30)
  unfold suggestion_score at hc
  by_cases h1 : c = q
  · rw [if_pos h1] at hc
    simp only [Option.map] at hc
    rw [← Option.some_inj.mp hc, h1]
  · rw [if_neg h1] at hc
    by_cases h2 : q.toList.isPrefixOf c.toList
    · rw [if_pos h2] at hc
      simp only [Option.map] at hc
      rw [← Option.some_inj.mp hc]
      have : (95 : ℚ) ≤ 100 := by norm_num
      linarith
    · rw [if_neg h2] at hc
      by_cases h3 : partial_ratio q c ≥ 85
      · rw [if_pos h3] at hc
        simp only [Option.map] at hc
        rw [← Option.some_inj.mp hc]
        have := partial_ratio_le_100 q c
        linarith
      · rw [if_neg h3] at hc
        simp at hc

unseal Rat.add Rat.mul Rat.inv in
theorem exact_match_not_outranked_witness :
    ∃ sq : ℚ, suggestion_score "ab" "ab" = some sq ∧ 101 ≤ sq :=
  exact_match_not_outranked "ab" "b" 101 (by decide) (by decide)

/-- The three catalog columns whose values feed the autocomplete pool
(`df['Track Title']`, `df['Artist']`, `df['Title']`), each with NaN entries
already dropped (`dropna()`). -/
structure TrackTable where
  track_titles : List String
  artists : List String
  titles : List String

def dedupFirstAux {α : Type} [DecidableEq α] : List α → List α → List α
  | _, [] => []
  | seen, a :: l =>
    if a ∈ seen then dedupFirstAux seen l else a :: dedupFirstAux (a :: seen) l

/-- First-occurrence deduplication: the model of Python's `set(...)` over a
concatenation of lists (iteration order modelled as first-insertion order) and
of pandas `drop_duplicates()` with its default `keep='first'`. -/
def dedupFirst {α : Type} [DecidableEq α] (l : List α) : List α :=
  dedupFirstAux [] l

/-- `norm_to_originals.setdefault(norm, set()).add(val)`: append `v` to the
bucket of key `norm`, creating the bucket at the end on first use. -/
def addToBucket (m : List (String × List String)) (norm : String) (v : String) :
    List (String × List String) :=
  match m with
  | [] => [(norm, [v])]
  | (k, vs) :: rest =>
    if k = norm then (k, vs ++ [v]) :: rest else (k, vs) :: addToBucket rest norm v

/-- The `norm_to_originals` map of `get_autocomplete_suggestions`
(lines 196–199): bucket the candidate values by normalized form, skipping
values whose normalized form is empty. -/
def norm_to_originals (vals : List String) : List (String × List String) :=
  vals.foldl
    (fun m v => if normalize v = "" then m else addToBucket m (normalize v) v) []

/-- The dictionary update of lines 217–219: `if original not in suggestions or
score > suggestions[original]: suggestions[original] = score` — insert a new
key at the end, or raise an existing key's score in place. -/
def updateScore : List (String × ℚ) → String → ℚ → List (String × ℚ)
  | [], o, s => [(o, s)]
  | (k, v) :: rest, o, s =>
    if k = o then (if v < s then (k, s) else (k, v)) :: rest
    else (k, v) :: updateScore rest o s

/-- The `suggestions` dictionary built by the scoring loop of
`get_autocomplete_suggestions` (lines 201–219): for each normalized bucket
that survives `suggestion_score`, every raw original receives the bucket's
score (keeping the maximum on collision). -/
def suggestions_map (pnorm : String) (buckets : List (String × List String)) :
    List (String × ℚ) :=
  buckets.foldl
    (fun m kv =>
      match suggestion_score pnorm kv.1 with
      | some sc => kv.2.foldl (fun m o => updateScore m o sc) m
      | none => m)
    []

/-- `sorted(suggestions.items(), key=lambda x: -x[1])` (line 221): a stable
sort by score descending. -/
def suggestion_matches (df : TrackTable) (p : String) : List (String × ℚ) :=
  (suggestions_map (normalize p)
      (norm_to_originals (dedupFirst (df.track_titles ++ df.artists ++ df.titles)))).mergeSort
    (fun a b => decide (b.2 ≤ a.2))

/-- `get_autocomplete_suggestions` (lines 188–222): empty normalized input
yields no suggestions; otherwise the top 20 raw values of the sorted score
list (`[x[0] for x in sorted_matches[:20]]`). -/
def get_autocomplete_suggestions (df : TrackTable) (p : String) : List String :=
  if normalize p = "" then []
  else ((suggestion_matches df p).take 20).map Prod.fst

theorem updateScore_map_fst (o : String) (s : ℚ) :
    ∀ m : List (String × ℚ),
      (updateScore m o s).map Prod.fst
        = if o ∈ m.map Prod.fst then m.map Prod.fst else m.map Prod.fst ++ [o] := by
  intro m
  induction m with
  | nil => simp [updateScore]
  | cons kv rest ih =>
    match kv with
    | (k, v) =>
      show (if k = o then (if v < s then (k, s) else (k, v)) :: rest
          else (k, v) :: updateScore rest o s).map Prod.fst = _
      by_cases hk : k = o
      · rw [if_pos hk]
        have hmem : o ∈ ((k, v) :: rest).map Prod.fst := by
          simp [hk.symm]
        rw [if_pos hmem]
        by_cases hv : v < s <;> simp [hv, List.map_cons]
      · rw [if_neg hk]
        rw [List.map_cons, List.map_cons, ih]
        by_cases ho : o ∈ rest.map Prod.fst
        · rw [if_pos ho, if_pos (by simp [ho])]
        · rw [if_neg ho, if_neg (by
            intro hcon
            rcases List.mem_cons.mp hcon with h | h
            · exact hk h.symm
            · exact ho h)]
          simp

theorem updateScore_nodup (o : String) (s : ℚ) (m : List (String × ℚ))
    (h : (m.map Prod.fst).Nodup) : ((updateScore m o s).map Prod.fst).Nodup := by
  rw [updateScore_map_fst]
  by_cases ho : o ∈ m.map Prod.fst
  · rw [if_pos ho]; exact h
  · rw [if_neg ho]
    rw [List.nodup_append]
    exact ⟨h, List.nodup_singleton o, by
      intro x hx hxo
      rcases List.mem_singleton.mp hxo with rfl
      exact ho hx⟩

theorem foldl_updateScore_nodup (sc : ℚ) :
    ∀ (vs : List String) (m : List (String × ℚ)),
      (m.map Prod.fst).Nodup →
      ((vs.foldl (fun m o => updateScore m o sc) m).map Prod.fst).Nodup := by
  intro vs
  induction vs with
  | nil => intro m h; exact h
  | cons v vs ih =>
    intro m h
    exact ih (updateScore m v sc) (updateScore_nodup v sc m h)

theorem suggestions_map_nodup (pnorm : String) :
    ∀ (buckets : List (String × List String)) (m : List (String × ℚ)),
      (m.map Prod.fst).Nodup →
      ((buckets.foldl
          (fun m kv =>
            match suggestion_score pnorm kv.1 with
            | some sc => kv.2.foldl (fun m o => updateScore m o sc) m
            | none => m)
          m).map Prod.fst).Nodup := by
  intro buckets
  induction buckets with
  | nil => intro m h; exact h
  | cons kv buckets ih =>
    intro m h
    cases hs : suggestion_score pnorm kv.1 with
    | none =>
      refine ih _ ?_
      simp [hs, h]
    | some sc =>
      refine ih _ ?_
      simp only [hs]
      exact foldl_updateScore_nodup sc kv.2 m h

/-- C8 (amended): the suggestion list contains at most 20 values (the
hard-coded limit), the score list it is cut from is ordered by score
descending, and the returned raw values are pairwise distinct (the
`suggestions` dictionary is keyed by raw value).  Deduplication is by *raw*
value only — distinct raw forms sharing one normalized form all remain, see
the counterexample. -/
theorem get_autocomplete_suggestions_shape (df : TrackTable) (p : String) :
    (get_autocomplete_suggestions df p).length ≤ 20
    ∧ (suggestion_matches df p).Pairwise (fun a b => b.2 ≤ a.2)
    ∧ (get_autocomplete_suggestions df p).Nodup := by
  have hsorted : (suggestion_matches df p).Pairwise (fun a b => b.2 ≤ a.2) := by
    have h := @List.sorted_mergeSort (String × ℚ)
      (fun a b => decide (b.2 ≤ a.2))
      (fun a b c hab hbc => by
        have h1 := of_decide_eq_true hab
        have h2 := of_decide_eq_true hbc
        exact decide_eq_true (le_trans h2 h1))
      (fun a b => by simpa using le_total b.2 a.2)
      (suggestions_map (normalize p)
        (norm_to_originals (dedupFirst (df.track_titles ++ df.artists ++ df.titles))))
    exact h.imp (fun hab => of_decide_eq_true hab)
  have hbase : ((suggestions_map (normalize p)
      (norm_to_originals (dedupFirst
        (df.track_titles ++ df.artists ++ df.titles)))).map Prod.fst).Nodup :=
    suggestions_map_nodup (normalize p) _ [] (by simp)
  have hperm : (suggestion_matches df p).Perm
      (suggestions_map (normalize p)
        (norm_to_originals (dedupFirst (df.track_titles ++ df.artists ++ df.titles)))) :=
    List.mergeSort_perm _ _
  have hpair : (suggestion_matches df p).Pairwise
      (fun a b : String × ℚ => a.1 ≠ b.1) :=
    (List.Perm.pairwise_iff (fun hxy => Ne.symm hxy) hperm).mpr
      (List.pairwise_map.mp hbase)
  refine ⟨?_, hsorted, ?_⟩
  · unfold get_autocomplete_suggestions
    by_cases h : normalize p = ""
    · rw [if_pos h]; simp
    · rw [if_neg h]
      rw [List.length_map, List.length_take]
      exact min_le_left _ _
  · unfold get_autocomplete_suggestions
    by_cases h : normalize p = ""
    · rw [if_pos h]; exact List.nodup_nil
    · rw [if_neg h]
      have htake : ((suggestion_matches df p).take 20).Pairwise
          (fun a b : String × ℚ => Prod.fst a ≠ Prod.fst b) :=
        List.Pairwise.sublist (List.take_sublist 20 _) hpair
      exact List.pairwise_map.mpr htake

/-- A two-row catalog whose artist column holds two distinct raw spellings of
one normalized artist value. -/
def df0 : TrackTable := ⟨[], ["Hello", "HELLO"], []⟩

unseal Rat.add Rat.mul Rat.inv List.mergeSort List.merge in
/-- C8 counterexample: the returned list is *not* deduplicated by normalized
form — `"Hello"` and `"HELLO"` share the normalized form `"hello"`, yet both
raw values appear in the suggestions for the query `"hello"` (the scoring
loop inserts every raw original of a bucket into the `suggestions`
dictionary). -/
theorem suggestions_not_normalized_dedup_counterexample :
    "Hello" ∈ get_autocomplete_suggestions df0 "hello"
    ∧ "HELLO" ∈ get_autocomplete_suggestions df0 "hello"
    ∧ normalize "Hello" = normalize "HELLO"
    ∧ "Hello" ≠ "HELLO" := by
  refine ⟨by decide, by decide, by decide, by decide⟩

/-- One row of the search-result table as far as the format facet is
concerned: the `release_id` and `Format` columns. -/
structure ResultRow where
  release_id : Int
  format : String
deriving DecidableEq

/-- `str.lower()` on an ASCII string. -/
def str_lower (s : String) : String :=
  String.mk (s.toList.map Char.toLower)

def containsSubAux (needle : List Char) : List Char → Bool
  | [] => needle.isEmpty
  | c :: rest => needle.isPrefixOf (c :: rest) || containsSubAux needle rest

/-- Substring membership — the effect of pandas `str.contains` with a plain
keyword (each branch of the regex alternation `album|compilation|comp` is a
literal keyword). -/
def containsSub (needle hay : String) : Bool :=
  containsSubAux needle.toList hay.toList

/-- `unique_releases = results[['release_id', 'Format']].drop_duplicates()`
(line 264): the distinct `(release_id, Format)` pairs of the result set, first
occurrences kept. -/
def unique_releases (results : List ResultRow) : List (Int × String) :=
  dedupFirst (results.map (fun r => (r.release_id, r.format)))

/-- Case-insensitive membership of one of the Album keywords
(`"album|compilation|comp"`, lines 267 and 280) in a format string. -/
def format_matches_album (s : String) : Bool :=
  containsSub "album" (str_lower s) || containsSub "compilation" (str_lower s)
    || containsSub "comp" (str_lower s)

/-- The displayed Album count (line 267): matching rows of `unique_releases`,
i.e. distinct `(release_id, Format)` pairs. -/
def format_count_album (results : List ResultRow) : Nat :=
  ((unique_releases results).filter (fun pr => format_matches_album pr.2)).length

/-- The Album format filter (lines 279–281): it keeps every matching *track
row* of `results`, not one row per release. -/
def filter_format_album (results : List ResultRow) : List ResultRow :=
  results.filter (fun r => format_matches_album r.format)

/-- C9: the displayed format count and the applied format filter disagree —
the count is taken over distinct `(release_id, Format)` pairs while the
filter keeps all matching track rows, so for a result set holding one Album
release with two tracks the option shows `Album (1)` while selecting it
produces 2 results.  (The spec itself flags this inconsistency in the source
as a bug class to avoid.) -/
theorem format_count_vs_filter_mismatch :
    format_count_album [⟨1, "Album"⟩, ⟨1, "Album"⟩] = 1
    ∧ (filter_format_album [⟨1, "Album"⟩, ⟨1, "Album"⟩]).length = 2
    ∧ (1 : Nat) ≠ 2 := by
  refine ⟨by decide, by decide, by decide⟩
